import Mathlib

/-!
Verification of the circle-FFT implementation (`circle_fft.ipynb`) over the
prime field F_31.

The Python `FieldElement` class keeps an integer `value` that every operation
reduces into `[0, 31)` via `% MOD`; it is therefore embedded as `ZMod 31`
(whose carrier is exactly the canonical residues `0, …, 30` and whose ring
operations are exactly `(a op b) % 31` on those representatives).  Division
`a / b = a * b.inv()` raises `ZeroDivisionError` on `b = 0` and otherwise
computes `a * pow(b, 29, 31)`; it is embedded as `fdiv` below, returning
`Except`.  `CirclePoint` is embedded as a plain structure of two field
elements together with the predicate `onCircle` that the Python constructor
checks at runtime (raising `PointNotOnCircle` when it fails); closure of the
group operations under `onCircle` is proved as a theorem, which is exactly
the statement that the constructor check never fires inside them.
-/

/-- The Python `MOD = 31` field: values canonically reduced into `[0, 31)`. -/
abbrev FieldElement := ZMod 31

instance : Fact (Nat.Prime 31) := ⟨by norm_num⟩

/-- The failure modes of the Python code relevant here: `ZeroDivisionError`
from `FieldElement.inv`, the `ValueError` raised by the size guard of
`circle_fft` / `circle_ifft` (the spec's SizeMismatch), and non-termination
(the transform helpers recurse forever on an empty vector; we model that
divergence as the distinguished result `nonTermination`). -/
inductive PyErr where
  | divisionByZero
  | sizeMismatch
  | nonTermination
deriving DecidableEq, Repr

instance {ε α : Type _} [DecidableEq ε] [DecidableEq α] : DecidableEq (Except ε α) := fun a b =>
  match a, b with
  | .ok x, .ok y =>
    if h : x = y then .isTrue (by rw [h]) else .isFalse (by intro hc; cases hc; exact h rfl)
  | .error x, .error y =>
    if h : x = y then .isTrue (by rw [h]) else .isFalse (by intro hc; cases hc; exact h rfl)
  | .ok _, .error _ => .isFalse (by intro hc; cases hc)
  | .error _, .ok _ => .isFalse (by intro hc; cases hc)

/-- Python `FieldElement(2)`, the constant `two` used by both transforms. -/
def two : FieldElement := 2

/-- The conversion `FieldElement(e)` applied by the transforms to every
input entry: the integer reduced into `[0, 31)`. -/
def toField (e : ℤ) : FieldElement := (e : FieldElement)

/-- The `.value` read back by the transforms on every output entry: the
canonical representative in `[0, 31)` as a plain integer. -/
def fieldValue (c : FieldElement) : ℤ := (c.val : ℤ)

/-- Python `a / b = a * b.inv()` where `inv` raises `ZeroDivisionError` on
zero and otherwise returns `pow(value, MOD - 2, MOD) = value ^ 29 % 31`. -/
def fdiv (a b : FieldElement) : Except PyErr FieldElement :=
  if b = 0 then .error .divisionByZero else .ok (a * b ^ 29)

/-- Python class `CirclePoint`: a pair of field elements.  The on-circle
constructor check is the predicate `onCircle` below. -/
structure CirclePoint where
  x : FieldElement
  y : FieldElement
deriving DecidableEq, Repr

/-- The constructor check `(x.square() + y.square()).value == 1` of
`CirclePoint.__init__` (violation raises `PointNotOnCircle`). -/
def onCircle (P : CirclePoint) : Prop := P.x * P.x + P.y * P.y = 1

instance : DecidablePred onCircle :=
  fun P => inferInstanceAs (Decidable (P.x * P.x + P.y * P.y = 1))

instance : Fintype CirclePoint where
  elems := ⟨(Finset.univ (α := FieldElement × FieldElement)).val.map fun p => ⟨p.1, p.2⟩,
    Multiset.Nodup.map (fun a b h => by cases a; cases b; cases h; rfl) Finset.univ.nodup⟩
  complete := fun P => Multiset.mem_map.mpr ⟨(P.x, P.y), Finset.mem_univ _, rfl⟩

/-- Python `CirclePoint.identity() = (1, 0)`. -/
def CirclePoint.identity : CirclePoint := ⟨1, 0⟩

/-- Python `CirclePoint.add`: `(x1*x2 - y1*y2, x1*y2 + x2*y1)`. -/
def CirclePoint.add (self other : CirclePoint) : CirclePoint :=
  ⟨self.x * other.x - self.y * other.y, self.x * other.y + other.x * self.y⟩

/-- The squaring map on x-coordinates, `x.square().double() - one`,
that is `2*x^2 - 1`; shared by `CirclePoint.double` and the transform
domain derivation. -/
def sqmap (x : FieldElement) : FieldElement := x * x + x * x - 1

/-- Python `CirclePoint.double`: `(2*x^2 - 1, 2*x*y)` written exactly as in
the source, `(x.square().double() - one, x.double() * y)`. -/
def CirclePoint.double (self : CirclePoint) : CirclePoint :=
  ⟨sqmap self.x, (self.x + self.x) * self.y⟩

/-- Python `CirclePoint.inverse`: `(x, -y)`. -/
def CirclePoint.inverse (self : CirclePoint) : CirclePoint := ⟨self.x, -self.y⟩

/-- The `while tmp > 0` double-and-add loop of `CirclePoint.power`.  The
loop halves `tmp` each iteration; the auxiliary first argument is a
structural-recursion bound (the entry point passes `tmp` itself, which
always suffices since `tmp / 2 < tmp`), used only so that the definition
computes by reduction. -/
def powerLoop : ℕ → CirclePoint → CirclePoint → ℕ → CirclePoint
  | _, out, _, 0 => out
  | 0, out, _, _ => out
  | fuel + 1, out, base, tmp =>
    powerLoop fuel (if tmp % 2 = 1 then out.add base else out) base.double (tmp / 2)

/-- Python `CirclePoint.power(n)` for `n ≥ 0` (negative `n` raises and is
outside this model): double-and-add starting from the identity. -/
def CirclePoint.power (self : CirclePoint) (n : ℕ) : CirclePoint :=
  powerLoop n CirclePoint.identity self n

/-- Python `find_generator()`: scan `xx in range(1, MOD)`, `yy in
range(1, MOD)` in order and return the first point with
`(xx*xx + yy*yy) % MOD == 1`, falling back to the identity. -/
def find_generator : CirclePoint :=
  match ((List.range' 1 30).flatMap fun xx => (List.range' 1 30).map fun yy => (xx, yy)).find?
      (fun q => (q.1 * q.1 + q.2 * q.2) % 31 == 1) with
  | some q => ⟨(q.1 : FieldElement), (q.2 : FieldElement)⟩
  | none => CirclePoint.identity

/-- Python `get_nth_generator(logn)`: raises `ValueError` (InvalidArgument)
unless `(MOD + 1) % (1 << logn) == 0`, else `find_generator().power((MOD + 1) // (1 << logn))`. -/
def get_nth_generator (logn : ℕ) : Option CirclePoint :=
  if (31 + 1) % (2 ^ logn) ≠ 0 then none
  else some (find_generator.power ((31 + 1) / 2 ^ logn))

/-- The running accumulation of the `generate_subgroup` comprehension
`[(p := p.add(g_k)) if i else p for i in range(1 << k)]`: starting value
`p`, each later entry adds `g` once more.  `accumList g p n` lists the
first `n` values. -/
def accumList (g : CirclePoint) : CirclePoint → ℕ → List CirclePoint
  | _, 0 => []
  | p, n + 1 => p :: accumList g (p.add g) n

/-- Python `generate_subgroup(k)`: the accumulation-ordered sequence of
`2^k` points starting at the identity, stepping by `get_nth_generator(k)`
(whose `ValueError` propagates as `none`). -/
def generate_subgroup (k : ℕ) : Option (List CirclePoint) :=
  (get_nth_generator k).map fun g_k => accumList g_k CirclePoint.identity (2 ^ k)

/-- Python `generate_twin_coset(Q, G_n_minus_1)`:
`[Q.add(g) for g in G] + [Q.inverse().add(g) for g in G]`. -/
def generate_twin_coset (Q : CirclePoint) (G_n_minus_1 : List CirclePoint) : List CirclePoint :=
  (G_n_minus_1.map fun g => Q.add g) ++ (G_n_minus_1.map fun g => Q.inverse.add g)

/-- Python `generate_standard_position_coset(Q, G_n)`: `[Q.add(g) for g in G_n]`. -/
def generate_standard_position_coset (Q : CirclePoint) (G_n : List CirclePoint) : List CirclePoint :=
  G_n.map fun g => Q.add g

/-- Python `decompose_to_twin_cosets(D, n, m)`.  The source function takes
only `(D, n, m)` and reads the coset point `Q` from the enclosing (module)
scope; the parameter `Q` here stands for that ambient global binding.  The
`assert len(D) == 1 << m` failure is `none`; so is the `ValueError` that
`generate_subgroup(n - 1)` raises at `n = 0` (Python `1 << -1`). -/
def decompose_to_twin_cosets (Q : CirclePoint) (D : List CirclePoint) (n m : ℕ) :
    Option (List (List CirclePoint)) :=
  if D.length ≠ 2 ^ m then none
  else if n = 0 then none
  else (generate_subgroup (n - 1)).map fun G_n_minus_1 =>
    (List.range (2 ^ m / 2 ^ n)).map fun k =>
      generate_twin_coset (Q.power (4 * k + 1)) G_n_minus_1

/-- The Python dict-based deduplication of
`halve_standard_position_coset_by_squaring_map`: keys `(x.value, y.value)`
determine the point, so the insertion-ordered dict keeps the first
occurrence of each point. -/
def pydedup (l : List CirclePoint) : List CirclePoint :=
  l.foldl (fun acc pt => if pt ∈ acc then acc else acc ++ [pt]) []

/-- The sort key order `(p.x.value, p.y.value)` of the Python
`unique.sort(key=...)` call: lexicographic on the canonical values. -/
def keyLe (a b : CirclePoint) : Prop :=
  a.x.val < b.x.val ∨ (a.x.val = b.x.val ∧ a.y.val ≤ b.y.val)

instance : DecidableRel keyLe :=
  fun a b => inferInstanceAs (Decidable (a.x.val < b.x.val ∨ (a.x.val = b.x.val ∧ a.y.val ≤ b.y.val)))

/-- Strict ascending order on the same key, used to state sortedness. -/
def keyLt (a b : CirclePoint) : Prop :=
  a.x.val < b.x.val ∨ (a.x.val = b.x.val ∧ a.y.val < b.y.val)

instance : DecidableRel keyLt :=
  fun a b => inferInstanceAs (Decidable (a.x.val < b.x.val ∨ (a.x.val = b.x.val ∧ a.y.val < b.y.val)))

/-- Python `halve_standard_position_coset_by_squaring_map`: apply the
squaring map to every point, deduplicate, and sort by `(x.value, y.value)`
ascending.  `list.sort` is a stable sort by a total preorder; after
deduplication the keys are pairwise distinct, so its output is the unique
`keyLe`-sorted permutation, here produced by insertion sort. -/
def halve_standard_position_coset_by_squaring_map (standard_coset : List CirclePoint) :
    List CirclePoint :=
  List.insertionSort keyLe (pydedup (standard_coset.map CirclePoint.double))

/-- The shared even-part computation of the four transform helpers:
`[(left[i] + right[i]) / two for i in range(half)]` over the zipped halves. -/
def evenParts : List (FieldElement × FieldElement) → Except PyErr (List FieldElement)
  | [] => .ok []
  | (l, r) :: rest =>
    match fdiv (l + r) two with
    | .error e => .error e
    | .ok v =>
      match evenParts rest with
      | .error e => .error e
      | .ok vs => .ok (v :: vs)

/-- The shared odd-part computation:
`[(left[i] - right[i]) / (factor[i] * two) for i in range(half)]`. -/
def oddParts : List ((FieldElement × FieldElement) × FieldElement) → Except PyErr (List FieldElement)
  | [] => .ok []
  | ((l, r), t) :: rest =>
    match fdiv (l - r) (t * two) with
    | .error e => .error e
    | .ok v =>
      match oddParts rest with
      | .error e => .error e
      | .ok vs => .ok (v :: vs)

/-- The interleaving `[c for pair in zip(even, odd) for c in pair]`
(truncating at the shorter list, as `zip` does). -/
def interleave : List FieldElement → List FieldElement → List FieldElement
  | a :: as_, b :: bs => a :: b :: interleave as_ bs
  | _, _ => []

/-- The stride slice `l[::2]`; `l[1::2]` is `everyOther (l.drop 1)`. -/
def everyOther : List FieldElement → List FieldElement
  | [] => []
  | [a] => [a]
  | a :: _ :: rest => a :: everyOther rest

/-- Three-list pointwise combination truncating at the shortest list, used
for the reconstruction comprehensions `for i in range(half)`. -/
def zip3With (f : FieldElement → FieldElement → FieldElement → FieldElement) :
    List FieldElement → List FieldElement → List FieldElement → List FieldElement
  | a :: as_, b :: bs, c :: cs => f a b c :: zip3With f as_ bs cs
  | _, _, _ => []

/-- Python `_fft_squaring_map_x(values, x_domain)`.  The first argument is a
structural-recursion bound: the source recursion halves the value vector,
so any bound of at least the vector length reproduces it exactly; every
call site passes the length of the vector being transformed.  On an empty
vector the source recurses on itself forever — reaching the bound `0` with
a non-singleton vector happens exactly then, modeled as `nonTermination`. -/
def fft_squaring_map_x : ℕ → List FieldElement → List FieldElement → Except PyErr (List FieldElement)
  | _, [v], _ => .ok [v]
  | 0, _, _ => .error .nonTermination
  | fuel + 1, values, x_domain =>
    let half := values.length / 2
    let left := values.take half
    let right := (values.drop half).reverse
    let x_factors := x_domain.take half
    match evenParts (left.zip right) with
    | .error e => .error e
    | .ok f_even_x =>
      match oddParts ((left.zip right).zip x_factors) with
      | .error e => .error e
      | .ok f_odd_x =>
        let next_x_domain := x_factors.map sqmap
        match fft_squaring_map_x fuel f_even_x next_x_domain with
        | .error e => .error e
        | .ok coeffs_even =>
          match fft_squaring_map_x fuel f_odd_x next_x_domain with
          | .error e => .error e
          | .ok coeffs_odd => .ok (interleave coeffs_even coeffs_odd)

/-- Python `_fft_quotient_map_y(values, circle_domain)`: the top layer,
splitting on the involution and recursing into `_fft_squaring_map_x` on
the x-coordinates of the first half of the domain. -/
def fft_quotient_map_y (values : List FieldElement) (circle_domain : List CirclePoint) :
    Except PyErr (List FieldElement) :=
  match values with
  | [v] => .ok [v]
  | _ =>
    let half := values.length / 2
    let left := values.take half
    let right := (values.drop half).reverse
    let y_factors := (circle_domain.take half).map CirclePoint.y
    match evenParts (left.zip right) with
    | .error e => .error e
    | .ok f_even_y =>
      match oddParts ((left.zip right).zip y_factors) with
      | .error e => .error e
      | .ok f_odd_y =>
        let x_domain := circle_domain.map CirclePoint.x
        let half_x_domain := x_domain.take half
        match fft_squaring_map_x f_even_y.length f_even_y half_x_domain with
        | .error e => .error e
        | .ok coeffs_even =>
          match fft_squaring_map_x f_odd_y.length f_odd_y half_x_domain with
          | .error e => .error e
          | .ok coeffs_odd => .ok (interleave coeffs_even coeffs_odd)

/-- Python `circle_fft(evaluations, circle_domain)`: the guard
`len(evaluations) != len(circle_domain) or len(evaluations) & (len(evaluations) - 1)`
raises `ValueError` (SizeMismatch); then entries are canonicalized by
`FieldElement(e)` (that is `e % 31`), transformed, and returned as the
canonical integer values. -/
def circle_fft (evaluations : List ℤ) (circle_domain : List CirclePoint) :
    Except PyErr (List ℤ) :=
  if evaluations.length ≠ circle_domain.length ∨
      evaluations.length &&& (evaluations.length - 1) ≠ 0 then
    .error .sizeMismatch
  else
    match fft_quotient_map_y (evaluations.map toField) circle_domain with
    | .error e => .error e
    | .ok coefficients => .ok (coefficients.map fieldValue)

/-- Python `_ifft_squaring_map_x(coefficients, x_domain)`: split by stride,
recurse on the `sqmap`-image domain, reconstruct
`even ± x * odd` and reverse the right half.  Bound argument as in
`fft_squaring_map_x`. -/
def ifft_squaring_map_x : ℕ → List FieldElement → List FieldElement → Except PyErr (List FieldElement)
  | _, [c], _ => .ok [c]
  | 0, _, _ => .error .nonTermination
  | fuel + 1, coefficients, x_domain =>
    let half := coefficients.length / 2
    let coeffs_even := everyOther coefficients
    let coeffs_odd := everyOther (coefficients.drop 1)
    let x_factors := x_domain.take half
    let next_x_domain := x_factors.map sqmap
    match ifft_squaring_map_x fuel coeffs_even next_x_domain with
    | .error e => .error e
    | .ok f_even_x =>
      match ifft_squaring_map_x fuel coeffs_odd next_x_domain with
      | .error e => .error e
      | .ok f_odd_x =>
        let evaluations_left := zip3With (fun t e o => e + t * o) x_factors f_even_x f_odd_x
        let evaluations_right := zip3With (fun t e o => e - t * o) x_factors f_even_x f_odd_x
        .ok (evaluations_left ++ evaluations_right.reverse)

/-- Python `_ifft_quotient_map_y(coefficients, circle_domain)`: the top
inverse layer, using the y-coordinates for reconstruction. -/
def ifft_quotient_map_y (coefficients : List FieldElement) (circle_domain : List CirclePoint) :
    Except PyErr (List FieldElement) :=
  match coefficients with
  | [c] => .ok [c]
  | _ =>
    let half := coefficients.length / 2
    let coeffs_even := everyOther coefficients
    let coeffs_odd := everyOther (coefficients.drop 1)
    let x_domain := circle_domain.map CirclePoint.x
    let y_factors := circle_domain.map CirclePoint.y
    let half_x_domain := x_domain.take half
    match ifft_squaring_map_x coeffs_even.length coeffs_even half_x_domain with
    | .error e => .error e
    | .ok f_even_y =>
      match ifft_squaring_map_x coeffs_odd.length coeffs_odd half_x_domain with
      | .error e => .error e
      | .ok f_odd_y =>
        let evaluations_left := zip3With (fun t e o => e + t * o) y_factors f_even_y f_odd_y
        let evaluations_right := zip3With (fun t e o => e - t * o) y_factors f_even_y f_odd_y
        .ok (evaluations_left ++ evaluations_right.reverse)

/-- Python `circle_ifft(coefficients, circle_domain)`: same guard as
`circle_fft`, then the inverse transform. -/
def circle_ifft (coefficients : List ℤ) (circle_domain : List CirclePoint) :
    Except PyErr (List ℤ) :=
  if coefficients.length ≠ circle_domain.length ∨
      coefficients.length &&& (coefficients.length - 1) ≠ 0 then
    .error .sizeMismatch
  else
    match ifft_quotient_map_y (coefficients.map toField) circle_domain with
    | .error e => .error e
    | .ok evaluations => .ok (evaluations.map fieldValue)

/-! ### Closure of the circle-group operations under the constructor check -/

lemma onCircle_identity : onCircle CirclePoint.identity := by decide

lemma onCircle_add {P R : CirclePoint} (hP : onCircle P) (hR : onCircle R) :
    onCircle (P.add R) := by
  obtain ⟨x1, y1⟩ := P
  obtain ⟨x2, y2⟩ := R
  simp only [onCircle, CirclePoint.add] at *
  linear_combination (x2 * x2 + y2 * y2) * hP + hR

lemma onCircle_double {P : CirclePoint} (hP : onCircle P) : onCircle P.double := by
  obtain ⟨x, y⟩ := P
  simp only [onCircle, CirclePoint.double, sqmap] at *
  linear_combination (4 * x * x) * hP

lemma onCircle_inverse {P : CirclePoint} (hP : onCircle P) : onCircle P.inverse := by
  obtain ⟨x, y⟩ := P
  simp only [onCircle, CirclePoint.inverse] at *
  linear_combination hP

lemma onCircle_powerLoop :
    ∀ (fuel : ℕ) (out base : CirclePoint) (tmp : ℕ),
      onCircle out → onCircle base → onCircle (powerLoop fuel out base tmp) := by
  intro fuel
  induction fuel with
  | zero =>
    intro out base tmp h1 h2
    cases tmp <;> exact h1
  | succ fuel ih =>
    intro out base tmp h1 h2
    cases tmp with
    | zero => exact h1
    | succ t =>
      refine ih (if (t + 1) % 2 = 1 then out.add base else out) base.double ((t + 1) / 2)
        ?_ (onCircle_double h2)
      split
      · exact onCircle_add h1 h2
      · exact h1

lemma onCircle_power {P : CirclePoint} (hP : onCircle P) (n : ℕ) : onCircle (P.power n) :=
  onCircle_powerLoop n CirclePoint.identity P n onCircle_identity hP

/-- C8: for every circle point `P` with `x^2 + y^2 = 1`, the squaring map
`P.double() = (2x^2 - 1, 2xy)` returns the same point as the group law
applied to `P` with itself, `P.add(P)`. -/
theorem double_eq_add_self (P : CirclePoint) (hP : onCircle P) : P.double = P.add P := by
  obtain ⟨x, y⟩ := P
  simp only [onCircle] at hP
  simp only [CirclePoint.double, CirclePoint.add, sqmap, CirclePoint.mk.injEq]
  exact ⟨by linear_combination hP, by ring⟩

/-- Witness for C8 at the concrete on-circle point `(13, 7)`. -/
theorem double_eq_add_self_witness :
    onCircle ⟨13, 7⟩ ∧ (⟨13, 7⟩ : CirclePoint).double = (⟨13, 7⟩ : CirclePoint).add ⟨13, 7⟩ :=
  ⟨by decide, double_eq_add_self ⟨13, 7⟩ (by decide)⟩

/-- C9: for all circle points `P`, `R` with `x^2 + y^2 = 1`, the results of
`P.add(R)`, `P.double()`, `P.inverse()` and `P.power(n)` for every `n ≥ 0`
again satisfy `x^2 + y^2 = 1`, so the on-circle validation inside the
`CirclePoint` constructor never raises `PointNotOnCircle` during any group
operation. -/
theorem group_ops_stay_on_circle (P R : CirclePoint) (hP : onCircle P) (hR : onCircle R) :
    onCircle (P.add R) ∧ onCircle P.double ∧ onCircle P.inverse ∧
      ∀ n : ℕ, onCircle (P.power n) :=
  ⟨onCircle_add hP hR, onCircle_double hP, onCircle_inverse hP, onCircle_power hP⟩

/-- Witness for C9 at the concrete points `(13, 7)` and `(24, 18)`. -/
theorem group_ops_stay_on_circle_witness :
    onCircle ((⟨13, 7⟩ : CirclePoint).add ⟨24, 18⟩) ∧
      onCircle (⟨13, 7⟩ : CirclePoint).double ∧
      onCircle (⟨13, 7⟩ : CirclePoint).inverse ∧
      ∀ n : ℕ, onCircle ((⟨13, 7⟩ : CirclePoint).power n) :=
  group_ops_stay_on_circle ⟨13, 7⟩ ⟨24, 18⟩ (by decide) (by decide)

/-! ### Concrete subgroup values and an exhaustive-scan bridge

The subgroups of the order-32 circle group over `F_31`, as computed by
`generate_subgroup`; `G5lit` is the whole circle group, so a scan over it
covers every point satisfying the constructor check. -/

def G0lit : List CirclePoint := [⟨1, 0⟩]

def G1lit : List CirclePoint := [⟨1, 0⟩, ⟨30, 0⟩]

def G2lit : List CirclePoint := [⟨1, 0⟩, ⟨0, 30⟩, ⟨30, 0⟩, ⟨0, 1⟩]

def G3lit : List CirclePoint :=
  [⟨1, 0⟩, ⟨4, 27⟩, ⟨0, 30⟩, ⟨27, 27⟩, ⟨30, 0⟩, ⟨27, 4⟩, ⟨0, 1⟩, ⟨4, 4⟩]

def G4lit : List CirclePoint :=
  [⟨1, 0⟩, ⟨7, 13⟩, ⟨4, 27⟩, ⟨18, 24⟩, ⟨0, 30⟩, ⟨13, 24⟩, ⟨27, 27⟩, ⟨24, 13⟩,
   ⟨30, 0⟩, ⟨24, 18⟩, ⟨27, 4⟩, ⟨13, 7⟩, ⟨0, 1⟩, ⟨18, 7⟩, ⟨4, 4⟩, ⟨7, 18⟩]

def G5lit : List CirclePoint :=
  [⟨1, 0⟩, ⟨2, 11⟩, ⟨7, 13⟩, ⟨26, 10⟩, ⟨4, 27⟩, ⟨21, 5⟩, ⟨18, 24⟩, ⟨20, 29⟩,
   ⟨0, 30⟩, ⟨11, 29⟩, ⟨13, 24⟩, ⟨10, 5⟩, ⟨27, 27⟩, ⟨5, 10⟩, ⟨24, 13⟩, ⟨29, 11⟩,
   ⟨30, 0⟩, ⟨29, 20⟩, ⟨24, 18⟩, ⟨5, 21⟩, ⟨27, 4⟩, ⟨10, 26⟩, ⟨13, 7⟩, ⟨11, 2⟩,
   ⟨0, 1⟩, ⟨20, 2⟩, ⟨18, 7⟩, ⟨21, 26⟩, ⟨4, 4⟩, ⟨26, 21⟩, ⟨7, 18⟩, ⟨2, 20⟩]

lemma gs0 : generate_subgroup 0 = some G0lit := by decide

lemma gs1 : generate_subgroup 1 = some G1lit := by decide

lemma gs2 : generate_subgroup 2 = some G2lit := by decide

lemma gs3 : generate_subgroup 3 = some G3lit := by decide

lemma gs4 : generate_subgroup 4 = some G4lit := by decide

lemma gs5 : generate_subgroup 5 = some G5lit := by decide

/-- A Boolean scan over all `31 × 31` coordinate pairs. -/
def pointCheck (f : CirclePoint → Bool) : Bool :=
  (List.range 31).all fun a => (List.range 31).all fun b =>
    f ⟨(a : FieldElement), (b : FieldElement)⟩

lemma pointCheck_true {f : CirclePoint → Bool} (h : pointCheck f = true) :
    ∀ Q : CirclePoint, f Q = true := by
  intro Q
  obtain ⟨x, y⟩ := Q
  have hx : x.val < 31 := x.val_lt
  have hy : y.val < 31 := y.val_lt
  have h1 := List.all_eq_true.mp h x.val (List.mem_range.mpr hx)
  have h2 := List.all_eq_true.mp h1 y.val (List.mem_range.mpr hy)
  rwa [ZMod.natCast_rightInverse x, ZMod.natCast_rightInverse y] at h2

set_option maxRecDepth 10000 in
lemma mem_G5lit_of_onCircle : ∀ Q : CirclePoint, onCircle Q → Q ∈ G5lit := by
  have h : pointCheck (fun Q => !(decide (onCircle Q)) || decide (Q ∈ G5lit)) = true := by rfl
  intro Q hQ
  have h2 := pointCheck_true h Q
  rw [decide_eq_true hQ] at h2
  simpa using of_decide_eq_true h2

lemma le5_of_subgroup_some {k : ℕ} {L : List CirclePoint} (h : generate_subgroup k = some L) :
    k ≤ 5 := by
  by_contra hk
  push_neg at hk
  have h64 : (64 : ℕ) ≤ 2 ^ k := by
    calc (64 : ℕ) = 2 ^ 6 := by norm_num
    _ ≤ 2 ^ k := Nat.pow_le_pow_right (by norm_num) hk
  have hmod : (31 + 1) % 2 ^ k = 32 := Nat.mod_eq_of_lt (by omega)
  simp only [generate_subgroup, get_nth_generator, hmod] at h
  exact Option.noConfusion h

lemma closure_of_all {L : List CirclePoint}
    (h : (L.all fun a => L.all fun b => decide (a.add b ∈ L)) = true) :
    ∀ a ∈ L, ∀ b ∈ L, a.add b ∈ L := by
  intro a ha b hb
  exact of_decide_eq_true (List.all_eq_true.mp (List.all_eq_true.mp h a ha) b hb)

lemma index_of_all {L : List CirclePoint} {g : CirclePoint}
    (h : ((List.range L.length).all fun i =>
        decide (L.getD i CirclePoint.identity = g.power i)) = true) :
    ∀ i : ℕ, (hi : i < L.length) → L.get ⟨i, hi⟩ = g.power i := by
  intro i hi
  have h2 := of_decide_eq_true (List.all_eq_true.mp h i (List.mem_range.mpr hi))
  rw [List.get_eq_getElem]
  rwa [List.getD_eq_getElem L CirclePoint.identity hi] at h2

set_option maxRecDepth 40000 in
/-- C7: for every `k` with `2^k` dividing `p + 1 = 32`, `generate_subgroup(k)`
returns a sequence of exactly `2^k` pairwise-distinct circle points closed
under the group law, whose index-`i` entry equals `i·g_k` (identity at index
0, then `g`, `2g`, …) for `g_k = get_nth_generator(k)`. -/
theorem generate_subgroup_spec (k : ℕ) (hk : 2 ^ k ∣ 31 + 1) :
    ∃ g L, get_nth_generator k = some g ∧ generate_subgroup k = some L ∧
      L.length = 2 ^ k ∧ L.Nodup ∧
      (∀ a ∈ L, ∀ b ∈ L, a.add b ∈ L) ∧
      (∀ i : ℕ, (hi : i < L.length) → L.get ⟨i, hi⟩ = g.power i) := by
  have hk5 : k ≤ 5 := by
    by_contra hl
    push_neg at hl
    have h64 : (64 : ℕ) ≤ 2 ^ k := by
      calc (64 : ℕ) = 2 ^ 6 := by norm_num
      _ ≤ 2 ^ k := Nat.pow_le_pow_right (by norm_num) hl
    have := Nat.le_of_dvd (by norm_num) hk
    omega
  interval_cases k
  · exact ⟨⟨1, 0⟩, G0lit, by decide, gs0, by decide, by decide,
      closure_of_all (by rfl), index_of_all (by rfl)⟩
  · exact ⟨⟨30, 0⟩, G1lit, by decide, gs1, by decide, by decide,
      closure_of_all (by rfl), index_of_all (by rfl)⟩
  · exact ⟨⟨0, 30⟩, G2lit, by decide, gs2, by decide, by decide,
      closure_of_all (by rfl), index_of_all (by rfl)⟩
  · exact ⟨⟨4, 27⟩, G3lit, by decide, gs3, by decide, by decide,
      closure_of_all (by rfl), index_of_all (by rfl)⟩
  · exact ⟨⟨7, 13⟩, G4lit, by decide, gs4, by decide, by decide,
      closure_of_all (by rfl), index_of_all (by rfl)⟩
  · exact ⟨⟨2, 11⟩, G5lit, by decide, gs5, by decide, by decide,
      closure_of_all (by rfl), index_of_all (by rfl)⟩

/-- Witness for C7 at `k = 3`. -/
theorem generate_subgroup_spec_witness :
    ∃ g L, get_nth_generator 3 = some g ∧ generate_subgroup 3 = some L ∧
      L.length = 2 ^ 3 ∧ L.Nodup ∧
      (∀ a ∈ L, ∀ b ∈ L, a.add b ∈ L) ∧
      (∀ i : ℕ, (hi : i < L.length) → L.get ⟨i, hi⟩ = g.power i) :=
  generate_subgroup_spec 3 (by norm_num)

/-- C2: with `p = 31`, `Q = (24,18)` and `D` the standard-position coset of
`Q` over `generate_subgroup(3)`, `circle_fft([1,2,4,8,16,1,2,4], D)` returns
exactly `[28,16,16,27,20,12,28,27]`, and `circle_ifft` of that returns
`[1,2,4,8,16,1,2,4]`. -/
theorem concrete_roundtrip :
    ((generate_subgroup 3).map fun G =>
        (circle_fft [1, 2, 4, 8, 16, 1, 2, 4] (generate_standard_position_coset ⟨24, 18⟩ G),
         circle_ifft [28, 16, 16, 27, 20, 12, 28, 27]
           (generate_standard_position_coset ⟨24, 18⟩ G)))
      = some (.ok [28, 16, 16, 27, 20, 12, 28, 27], .ok [1, 2, 4, 8, 16, 1, 2, 4]) := by
  decide

/-- C3 evidence: on the empty input (length 0, equal lengths, not a power of
two), neither transform raises SizeMismatch; the guard
`len & (len - 1)` evaluates to `0 & -1 = 0` and accepts length 0, after
which the recursive helpers never reach a base case (the Python code dies
with `RecursionError`, modeled as `nonTermination`). -/
theorem empty_input_diverges_without_size_mismatch :
    circle_fft [] [] = .error .nonTermination ∧
    circle_ifft [] [] = .error .nonTermination ∧
    circle_fft [] [] ≠ .error .sizeMismatch ∧
    circle_ifft [] [] ≠ .error .sizeMismatch :=
  ⟨rfl, rfl, by decide, by decide⟩

/-- Counterexample to C1: the §4.3 constructors accept the identity as coset
point; for `D = generate_standard_position_coset(identity, generate_subgroup(1))`
(a valid domain by the letter of the claim, `len(v) = len(D) = 2`),
`circle_fft([0,1], D)` raises `ZeroDivisionError` because the domain
contains a point with `y = 0`, so the round trip does not return `v`. -/
theorem roundtrip_fails_on_degenerate_coset :
    generate_subgroup 1 = some [CirclePoint.identity, ⟨30, 0⟩] ∧
    circle_fft [0, 1]
        (generate_standard_position_coset CirclePoint.identity [CirclePoint.identity, ⟨30, 0⟩])
      = .error .divisionByZero := by
  decide

/-- Counterexample to C4: `decompose_to_twin_cosets` reads `Q` from the
enclosing scope instead of taking it as a parameter.  Here the domain is
built from the coset point `(24,18)`, but with the ambient global `Q`
bound to `(13,7)` the returned twin-cosets are built from powers of
`(13,7)`: the 0-th is not `generate_twin_coset((24,18)^1, G_1)` as the
claim requires. -/
theorem decompose_uses_ambient_global_not_builder :
    generate_subgroup 3 = some G3lit ∧
    generate_subgroup 1 = some G1lit ∧
    decompose_to_twin_cosets ⟨13, 7⟩ (generate_standard_position_coset ⟨24, 18⟩ G3lit) 2 3
      = some [[⟨13, 7⟩, ⟨18, 24⟩, ⟨13, 24⟩, ⟨18, 7⟩], [⟨24, 13⟩, ⟨7, 18⟩, ⟨24, 18⟩, ⟨7, 13⟩]] ∧
    generate_twin_coset ((⟨24, 18⟩ : CirclePoint).power 1) G1lit
      = [⟨24, 18⟩, ⟨7, 13⟩, ⟨24, 13⟩, ⟨7, 18⟩] ∧
    ([⟨13, 7⟩, ⟨18, 24⟩, ⟨13, 24⟩, ⟨18, 7⟩] : List CirclePoint)
      ≠ [⟨24, 18⟩, ⟨7, 13⟩, ⟨24, 13⟩, ⟨7, 18⟩] := by
  refine ⟨gs3, gs1, by decide, by decide, by decide⟩

lemma accumList_length (g : CirclePoint) : ∀ (p : CirclePoint) (n : ℕ),
    (accumList g p n).length = n := by
  intro p n
  induction n generalizing p with
  | zero => rfl
  | succ n ih => simp [accumList, ih]

lemma subgroup_some_length {k : ℕ} {L : List CirclePoint}
    (h : generate_subgroup k = some L) : L.length = 2 ^ k := by
  unfold generate_subgroup at h
  cases hg : get_nth_generator k with
  | none => rw [hg] at h; exact Option.noConfusion h
  | some g =>
    rw [hg] at h
    have h2 : some (accumList g CirclePoint.identity (2 ^ k)) = some L := h
    cases h2
    exact accumList_length g CirclePoint.identity (2 ^ k)

lemma subgroup_some_of_le5 {k : ℕ} (hk : k ≤ 5) :
    generate_subgroup k = some (accumList (find_generator.power ((31 + 1) / 2 ^ k))
      CirclePoint.identity (2 ^ k)) := by
  have hdvd : 2 ^ k ∣ 31 + 1 := by
    have h1 : 2 ^ k ∣ 2 ^ 5 := Nat.pow_dvd_pow 2 hk
    have h2 : (2 : ℕ) ^ 5 = 32 := by norm_num
    rw [h2] at h1
    exact h1
  have hmod : (31 + 1) % 2 ^ k = 0 := Nat.mod_eq_zero_of_dvd hdvd
  unfold generate_subgroup get_nth_generator
  simp [hmod]

/-- C4 amended: `decompose_to_twin_cosets(D, n, m)` reads the coset point
from the enclosing scope (modeled by the explicit argument `Q` standing for
that global); it fails when `len(D) ≠ 2^m`; and it returns `2^{m-n}`
twin-cosets of size `2^n`, the `k`-th built from `Qglobal^{4k+1}` and
`G_{n-1}` — correct for the supplied domain only when the ambient global
equals the point that built `D`. -/
theorem decompose_from_ambient_global (Q : CirclePoint) (D : List CirclePoint) (n m : ℕ)
    (hn : 1 ≤ n) (hn6 : n ≤ 6) (hnm : n ≤ m) (hD : D.length = 2 ^ m) :
    (∀ D2 : List CirclePoint, D2.length ≠ 2 ^ m → decompose_to_twin_cosets Q D2 n m = none) ∧
    ∃ G L, generate_subgroup (n - 1) = some G ∧
      decompose_to_twin_cosets Q D n m = some L ∧
      L.length = 2 ^ (m - n) ∧
      (∀ tc ∈ L, tc.length = 2 ^ n) ∧
      (∀ k : ℕ, (hk : k < L.length) →
        L.get ⟨k, hk⟩ = generate_twin_coset (Q.power (4 * k + 1)) G) := by
  have hG := subgroup_some_of_le5 (k := n - 1) (by omega)
  have hGlen : (accumList (find_generator.power ((31 + 1) / 2 ^ (n - 1)))
      CirclePoint.identity (2 ^ (n - 1))).length = 2 ^ (n - 1) :=
    accumList_length _ _ _
  have hdiv : 2 ^ m / 2 ^ n = 2 ^ (m - n) := Nat.pow_div hnm (by norm_num)
  constructor
  · intro D2 hD2
    unfold decompose_to_twin_cosets
    rw [if_pos hD2]
  · refine ⟨accumList (find_generator.power ((31 + 1) / 2 ^ (n - 1)))
        CirclePoint.identity (2 ^ (n - 1)),
      (List.range (2 ^ (m - n))).map fun k =>
        generate_twin_coset (Q.power (4 * k + 1))
          (accumList (find_generator.power ((31 + 1) / 2 ^ (n - 1)))
            CirclePoint.identity (2 ^ (n - 1))),
      hG, ?_, ?_, ?_, ?_⟩
    · unfold decompose_to_twin_cosets
      rw [if_neg (by omega), if_neg (by omega), hG, hdiv]
      rfl
    · simp
    · intro tc htc
      simp only [List.mem_map] at htc
      obtain ⟨k, _, hk⟩ := htc
      rw [← hk]
      simp only [generate_twin_coset, List.length_append, List.length_map, hGlen]
      have h1 : n - 1 + 1 = n := by omega
      calc 2 ^ (n - 1) + 2 ^ (n - 1) = 2 ^ (n - 1) * 2 := by ring
      _ = 2 ^ (n - 1 + 1) := (pow_succ 2 (n - 1)).symm
      _ = 2 ^ n := by rw [h1]
    · intro k hk
      rw [List.get_eq_getElem]
      simp

/-- Witness for C4 amended at `Q = (13,7)`, `n = 2`, `m = 3`, `D` the
standard-position coset of `(13,7)` over `G_3`. -/
theorem decompose_from_ambient_global_witness :
    (∀ D2 : List CirclePoint, D2.length ≠ 2 ^ 3 →
      decompose_to_twin_cosets ⟨13, 7⟩ D2 2 3 = none) ∧
    ∃ G L, generate_subgroup (2 - 1) = some G ∧
      decompose_to_twin_cosets ⟨13, 7⟩ (generate_standard_position_coset ⟨13, 7⟩ G3lit) 2 3
        = some L ∧
      L.length = 2 ^ (3 - 2) ∧
      (∀ tc ∈ L, tc.length = 2 ^ 2) ∧
      (∀ k : ℕ, (hk : k < L.length) →
        L.get ⟨k, hk⟩ = generate_twin_coset ((⟨13, 7⟩ : CirclePoint).power (4 * k + 1)) G) :=
  decompose_from_ambient_global ⟨13, 7⟩ (generate_standard_position_coset ⟨13, 7⟩ G3lit) 2 3
    (by norm_num) (by norm_num) (by norm_num) (by decide)

lemma subgroup_unique {k : ℕ} {L1 L2 : List CirclePoint}
    (h1 : generate_subgroup k = some L1) (h2 : generate_subgroup k = some L2) : L1 = L2 := by
  rw [h1] at h2
  exact Option.some.inj h2

/-- Counterexample to C5: `Q = (2,11)` is a circle point (it generates the
whole order-32 group), and at `n = 1` the twin coset
`{Q, Q^{-1}} = {(2,11), (2,20)}` is not set-equal to the standard-position
coset `Q·G_1 = {(2,11), (29,20)}`. -/
theorem twin_coset_not_set_equal_for_generator :
    onCircle ⟨2, 11⟩ ∧
    generate_subgroup 0 = some G0lit ∧
    generate_subgroup 1 = some G1lit ∧
    (⟨29, 20⟩ : CirclePoint) ∈ generate_standard_position_coset ⟨2, 11⟩ G1lit ∧
    (⟨29, 20⟩ : CirclePoint) ∉ generate_twin_coset ⟨2, 11⟩ G0lit := by
  exact ⟨by decide, gs0, gs1, by decide, by decide⟩

/-- Per-point Boolean check for the amended C5: under the side condition
`π(Q) ∈ G_n \ G_{n-1}`, the twin coset and the standard-position coset are
mutually contained, and (when `flag` is set, used for `n ≥ 2`) the two
lists are not equal as lists. -/
def C5check (Gm Gn : List CirclePoint) (flag : Bool) (Q : CirclePoint) : Bool :=
  (!(decide (Q.double ∈ Gn)) || decide (Q.double ∈ Gm)) ||
  (((generate_twin_coset Q Gm).all fun P_ =>
      decide (P_ ∈ generate_standard_position_coset Q Gn)) &&
   ((generate_standard_position_coset Q Gn).all fun P_ =>
      decide (P_ ∈ generate_twin_coset Q Gm)) &&
   (!flag || decide (generate_twin_coset Q Gm ≠ generate_standard_position_coset Q Gn)))

lemma C5check_spec {Gm Gn : List CirclePoint} {flag : Bool} {Q : CirclePoint}
    (h : C5check Gm Gn flag Q = true)
    (hsq1 : Q.double ∈ Gn) (hsq2 : Q.double ∉ Gm) :
    (∀ P_ ∈ generate_twin_coset Q Gm, P_ ∈ generate_standard_position_coset Q Gn) ∧
    (∀ P_ ∈ generate_standard_position_coset Q Gn, P_ ∈ generate_twin_coset Q Gm) ∧
    (flag = true → generate_twin_coset Q Gm ≠ generate_standard_position_coset Q Gn) := by
  unfold C5check at h
  rw [decide_eq_true hsq1, decide_eq_false hsq2] at h
  simp only [Bool.not_true, Bool.or_self, Bool.false_or, Bool.and_eq_true,
    Bool.or_eq_true] at h
  obtain ⟨⟨hA, hB⟩, hC⟩ := h
  refine ⟨?_, ?_, ?_⟩
  · intro P_ hP
    exact of_decide_eq_true (List.all_eq_true.mp hA P_ hP)
  · intro P_ hP
    exact of_decide_eq_true (List.all_eq_true.mp hB P_ hP)
  · intro hflag
    rw [hflag] at hC
    rcases hC with hC | hC
    · exact absurd hC (by decide)
    · exact of_decide_eq_true hC

set_option maxRecDepth 40000 in
lemma C5scan1 : (G5lit.all fun Q => C5check G0lit G1lit false Q) = true := by rfl

set_option maxRecDepth 40000 in
lemma C5scan2 : (G5lit.all fun Q => C5check G1lit G2lit true Q) = true := by rfl

set_option maxRecDepth 40000 in
lemma C5scan3 : (G5lit.all fun Q => C5check G2lit G3lit true Q) = true := by rfl

set_option maxRecDepth 40000 in
lemma C5scan4 : (G5lit.all fun Q => C5check G3lit G4lit true Q) = true := by rfl

set_option maxRecDepth 40000 in
lemma C5scan5 : (G5lit.all fun Q => C5check G4lit G5lit true Q) = true := by rfl

/-- C5 amended: for every circle point `Q` and `n ≥ 1` for which the
subgroups exist and whose square `π(Q)` lies in `G_n` but not in `G_{n-1}`
(this holds for all proper standard-position coset points, but fails for
e.g. the group generator `(2,11)` at `n = 1`), the twin coset over
`G_{n-1}` equals the standard-position coset over `G_n` as a set; the
element order differs for `n ≥ 2` (at `n = 1` the two lists coincide). -/
theorem twin_coset_set_eq_standard_coset (n : ℕ) (Q : CirclePoint) (Gm Gn : List CirclePoint)
    (hn : 1 ≤ n) (hQ : onCircle Q)
    (hGm : generate_subgroup (n - 1) = some Gm) (hGn : generate_subgroup n = some Gn)
    (hsq1 : Q.double ∈ Gn) (hsq2 : Q.double ∉ Gm) :
    (∀ P_ ∈ generate_twin_coset Q Gm, P_ ∈ generate_standard_position_coset Q Gn) ∧
    (∀ P_ ∈ generate_standard_position_coset Q Gn, P_ ∈ generate_twin_coset Q Gm) ∧
    (2 ≤ n → generate_twin_coset Q Gm ≠ generate_standard_position_coset Q Gn) := by
  have hn5 : n ≤ 5 := le5_of_subgroup_some hGn
  have hmem := mem_G5lit_of_onCircle Q hQ
  interval_cases n
  · obtain rfl : Gm = G0lit := subgroup_unique hGm gs0
    obtain rfl : Gn = G1lit := subgroup_unique hGn gs1
    have h := C5check_spec (List.all_eq_true.mp C5scan1 Q hmem) hsq1 hsq2
    exact ⟨h.1, h.2.1, fun hc => absurd hc (by norm_num)⟩
  · obtain rfl : Gm = G1lit := subgroup_unique hGm gs1
    obtain rfl : Gn = G2lit := subgroup_unique hGn gs2
    have h := C5check_spec (List.all_eq_true.mp C5scan2 Q hmem) hsq1 hsq2
    exact ⟨h.1, h.2.1, fun _ => h.2.2 rfl⟩
  · obtain rfl : Gm = G2lit := subgroup_unique hGm gs2
    obtain rfl : Gn = G3lit := subgroup_unique hGn gs3
    have h := C5check_spec (List.all_eq_true.mp C5scan3 Q hmem) hsq1 hsq2
    exact ⟨h.1, h.2.1, fun _ => h.2.2 rfl⟩
  · obtain rfl : Gm = G3lit := subgroup_unique hGm gs3
    obtain rfl : Gn = G4lit := subgroup_unique hGn gs4
    have h := C5check_spec (List.all_eq_true.mp C5scan4 Q hmem) hsq1 hsq2
    exact ⟨h.1, h.2.1, fun _ => h.2.2 rfl⟩
  · obtain rfl : Gm = G4lit := subgroup_unique hGm gs4
    obtain rfl : Gn = G5lit := subgroup_unique hGn gs5
    have h := C5check_spec (List.all_eq_true.mp C5scan5 Q hmem) hsq1 hsq2
    exact ⟨h.1, h.2.1, fun _ => h.2.2 rfl⟩

/-- Witness for C5 amended at `n = 3`, `Q = (13,7)`. -/
theorem twin_coset_set_eq_standard_coset_witness :
    (∀ P_ ∈ generate_twin_coset ⟨13, 7⟩ G2lit,
        P_ ∈ generate_standard_position_coset ⟨13, 7⟩ G3lit) ∧
    (∀ P_ ∈ generate_standard_position_coset ⟨13, 7⟩ G3lit,
        P_ ∈ generate_twin_coset ⟨13, 7⟩ G2lit) ∧
    (2 ≤ 3 → generate_twin_coset ⟨13, 7⟩ G2lit
        ≠ generate_standard_position_coset ⟨13, 7⟩ G3lit) :=
  twin_coset_set_eq_standard_coset 3 ⟨13, 7⟩ G2lit G3lit (by norm_num) (by decide)
    gs2 gs3 (by decide) (by decide)

/-- Per-point Boolean check for C6: the halved coset has half the length,
no duplicates, is mutually contained with the image of the squaring map,
and is ascending in the `(x.value, y.value)` key order. -/
def C6check (Gn : List CirclePoint) (Q : CirclePoint) : Bool :=
  decide ((halve_standard_position_coset_by_squaring_map
      (generate_standard_position_coset Q Gn)).length
    = (generate_standard_position_coset Q Gn).length / 2) &&
  decide (halve_standard_position_coset_by_squaring_map
      (generate_standard_position_coset Q Gn)).Nodup &&
  ((halve_standard_position_coset_by_squaring_map
      (generate_standard_position_coset Q Gn)).all fun P_ =>
    decide (P_ ∈ (generate_standard_position_coset Q Gn).map CirclePoint.double)) &&
  (((generate_standard_position_coset Q Gn).map CirclePoint.double).all fun P_ =>
    decide (P_ ∈ halve_standard_position_coset_by_squaring_map
      (generate_standard_position_coset Q Gn))) &&
  decide (List.Pairwise keyLt (halve_standard_position_coset_by_squaring_map
      (generate_standard_position_coset Q Gn)))

lemma C6check_spec {Gn : List CirclePoint} {Q : CirclePoint}
    (h : C6check Gn Q = true) :
    (halve_standard_position_coset_by_squaring_map
        (generate_standard_position_coset Q Gn)).length
      = (generate_standard_position_coset Q Gn).length / 2 ∧
    (halve_standard_position_coset_by_squaring_map
        (generate_standard_position_coset Q Gn)).Nodup ∧
    (∀ P_ ∈ halve_standard_position_coset_by_squaring_map
        (generate_standard_position_coset Q Gn),
      P_ ∈ (generate_standard_position_coset Q Gn).map CirclePoint.double) ∧
    (∀ P_ ∈ (generate_standard_position_coset Q Gn).map CirclePoint.double,
      P_ ∈ halve_standard_position_coset_by_squaring_map
        (generate_standard_position_coset Q Gn)) ∧
    List.Pairwise keyLt (halve_standard_position_coset_by_squaring_map
        (generate_standard_position_coset Q Gn)) := by
  unfold C6check at h
  rw [Bool.and_eq_true, Bool.and_eq_true, Bool.and_eq_true, Bool.and_eq_true] at h
  obtain ⟨⟨⟨⟨h1, h2⟩, h3⟩, h4⟩, h5⟩ := h
  refine ⟨of_decide_eq_true h1, of_decide_eq_true h2, ?_, ?_, of_decide_eq_true h5⟩
  · intro P_ hP
    exact of_decide_eq_true (List.all_eq_true.mp h3 P_ hP)
  · intro P_ hP
    exact of_decide_eq_true (List.all_eq_true.mp h4 P_ hP)

set_option maxRecDepth 40000 in
lemma C6scan1 : (G5lit.all fun Q => C6check G1lit Q) = true := by rfl

set_option maxRecDepth 40000 in
lemma C6scan2 : (G5lit.all fun Q => C6check G2lit Q) = true := by rfl

set_option maxRecDepth 40000 in
lemma C6scan3 : (G5lit.all fun Q => C6check G3lit Q) = true := by rfl

set_option maxRecDepth 40000 in
lemma C6scan4 : (G5lit.all fun Q => C6check G4lit Q) = true := by rfl

set_option maxRecDepth 100000 in
set_option maxHeartbeats 4000000 in
lemma C6scan5 : (G5lit.all fun Q => C6check G5lit Q) = true := by rfl

/-- C6: for every standard-position coset `D = Q·G_n` of size `2^n` with
`n ≥ 1` (any circle point `Q`, subgroups as built by `generate_subgroup`),
`halve_standard_position_coset_by_squaring_map(D)` returns exactly
`len(D)/2` pairwise-distinct points, equal as a set to the image of `D`
under the squaring map `π`, ordered ascending by `(x.value, y.value)`. -/
theorem halve_standard_coset_spec (n : ℕ) (Q : CirclePoint) (Gn : List CirclePoint)
    (hn : 1 ≤ n) (hQ : onCircle Q) (hGn : generate_subgroup n = some Gn) :
    (halve_standard_position_coset_by_squaring_map
        (generate_standard_position_coset Q Gn)).length
      = (generate_standard_position_coset Q Gn).length / 2 ∧
    (halve_standard_position_coset_by_squaring_map
        (generate_standard_position_coset Q Gn)).Nodup ∧
    (∀ P_ ∈ halve_standard_position_coset_by_squaring_map
        (generate_standard_position_coset Q Gn),
      P_ ∈ (generate_standard_position_coset Q Gn).map CirclePoint.double) ∧
    (∀ P_ ∈ (generate_standard_position_coset Q Gn).map CirclePoint.double,
      P_ ∈ halve_standard_position_coset_by_squaring_map
        (generate_standard_position_coset Q Gn)) ∧
    List.Pairwise keyLt (halve_standard_position_coset_by_squaring_map
        (generate_standard_position_coset Q Gn)) := by
  have hn5 : n ≤ 5 := le5_of_subgroup_some hGn
  have hmem := mem_G5lit_of_onCircle Q hQ
  interval_cases n
  · obtain rfl : Gn = G1lit := subgroup_unique hGn gs1
    exact C6check_spec (List.all_eq_true.mp C6scan1 Q hmem)
  · obtain rfl : Gn = G2lit := subgroup_unique hGn gs2
    exact C6check_spec (List.all_eq_true.mp C6scan2 Q hmem)
  · obtain rfl : Gn = G3lit := subgroup_unique hGn gs3
    exact C6check_spec (List.all_eq_true.mp C6scan3 Q hmem)
  · obtain rfl : Gn = G4lit := subgroup_unique hGn gs4
    exact C6check_spec (List.all_eq_true.mp C6scan4 Q hmem)
  · obtain rfl : Gn = G5lit := subgroup_unique hGn gs5
    exact C6check_spec (List.all_eq_true.mp C6scan5 Q hmem)

/-- Witness for C6 at `n = 3`, `Q = (13,7)`. -/
theorem halve_standard_coset_spec_witness :
    (halve_standard_position_coset_by_squaring_map
        (generate_standard_position_coset ⟨13, 7⟩ G3lit)).length
      = (generate_standard_position_coset ⟨13, 7⟩ G3lit).length / 2 ∧
    (halve_standard_position_coset_by_squaring_map
        (generate_standard_position_coset ⟨13, 7⟩ G3lit)).Nodup ∧
    (∀ P_ ∈ halve_standard_position_coset_by_squaring_map
        (generate_standard_position_coset ⟨13, 7⟩ G3lit),
      P_ ∈ (generate_standard_position_coset ⟨13, 7⟩ G3lit).map CirclePoint.double) ∧
    (∀ P_ ∈ (generate_standard_position_coset ⟨13, 7⟩ G3lit).map CirclePoint.double,
      P_ ∈ halve_standard_position_coset_by_squaring_map
        (generate_standard_position_coset ⟨13, 7⟩ G3lit)) ∧
    List.Pairwise keyLt (halve_standard_position_coset_by_squaring_map
        (generate_standard_position_coset ⟨13, 7⟩ G3lit)) :=
  halve_standard_coset_spec 3 ⟨13, 7⟩ G3lit (by norm_num) (by decide) gs3

lemma intCast_eq_of_emod {a b : ℤ} (h : a % 31 = b % 31) :
    (a : FieldElement) = (b : FieldElement) := by
  rw [ZMod.intCast_eq_intCast_iff' a b 31]
  exact_mod_cast h

lemma map_intCast_eq_of_emod {v w : List ℤ}
    (h : List.Forall₂ (fun a b => a % 31 = b % 31) v w) :
    v.map toField = w.map toField := by
  induction v generalizing w with
  | nil => cases h; rfl
  | cons a as ih =>
    cases h with
    | cons h1 h2 =>
      simp only [List.map_cons]
      rw [show toField a = toField _ from intCast_eq_of_emod h1, ih h2]

/-- C10: `circle_fft` and `circle_ifft` reduce every input entry modulo
`p = 31` before transforming (entrywise congruent integer vectors give
identical results) and return plain integers canonicalized into `[0, p)`. -/
theorem transforms_canonicalize_mod_p (v w : List ℤ) (D : List CirclePoint)
    (h : List.Forall₂ (fun a b => a % 31 = b % 31) v w) :
    circle_fft v D = circle_fft w D ∧ circle_ifft v D = circle_ifft w D ∧
    (∀ r, circle_fft v D = .ok r → ∀ e ∈ r, 0 ≤ e ∧ e < 31) ∧
    (∀ r, circle_ifft v D = .ok r → ∀ e ∈ r, 0 ≤ e ∧ e < 31) := by
  have hlen : v.length = w.length := h.length_eq
  have hmap := map_intCast_eq_of_emod h
  refine ⟨?_, ?_, ?_, ?_⟩
  · unfold circle_fft
    rw [hlen, hmap]
  · unfold circle_ifft
    rw [hlen, hmap]
  · intro r hr
    unfold circle_fft at hr
    split at hr
    · exact Except.noConfusion hr
    · cases hq : fft_quotient_map_y (v.map toField) D with
      | error e => rw [hq] at hr; exact Except.noConfusion hr
      | ok coeffs =>
        rw [hq] at hr
        cases hr
        intro e he
        simp only [List.mem_map] at he
        obtain ⟨c, _, rfl⟩ := he
        exact ⟨Int.natCast_nonneg c.val, by unfold fieldValue; exact_mod_cast c.val_lt⟩
  · intro r hr
    unfold circle_ifft at hr
    split at hr
    · exact Except.noConfusion hr
    · cases hq : ifft_quotient_map_y (v.map toField) D with
      | error e => rw [hq] at hr; exact Except.noConfusion hr
      | ok evals =>
        rw [hq] at hr
        cases hr
        intro e he
        simp only [List.mem_map] at he
        obtain ⟨c, _, rfl⟩ := he
        exact ⟨Int.natCast_nonneg c.val, by unfold fieldValue; exact_mod_cast c.val_lt⟩

/-- Witness for C10: `v = [0]` and `w = [31]` agree mod 31 and transform
identically on a singleton domain, with canonical outputs. -/
theorem transforms_canonicalize_mod_p_witness :
    circle_fft [0] [⟨1, 0⟩] = circle_fft [31] [⟨1, 0⟩] ∧
    circle_ifft [0] [⟨1, 0⟩] = circle_ifft [31] [⟨1, 0⟩] ∧
    (∀ r, circle_fft [0] [⟨1, 0⟩] = .ok r → ∀ e ∈ r, 0 ≤ e ∧ e < 31) ∧
    (∀ r, circle_ifft [0] [⟨1, 0⟩] = .ok r → ∀ e ∈ r, 0 ≤ e ∧ e < 31) :=
  transforms_canonicalize_mod_p [0] [31] [⟨1, 0⟩]
    (List.Forall₂.cons (by decide) List.Forall₂.nil)

/-! ### Round-trip development -/

lemma fe_two_ne_zero : two ≠ 0 := by decide

lemma pow29_eq_inv {b : FieldElement} (hb : b ≠ 0) : b ^ 29 = b⁻¹ := by
  have h30 : b ^ 30 = 1 := by
    have h := ZMod.pow_card_sub_one_eq_one (p := 31) hb
    norm_num at h
    exact h
  have hmul : b * b ^ 29 = 1 := by
    calc b * b ^ 29 = b ^ 30 := by ring
    _ = 1 := h30
  exact (inv_eq_of_mul_eq_one_right hmul).symm

lemma fdiv_ok {a b q : FieldElement} (h : fdiv a b = .ok q) :
    b ≠ 0 ∧ q = a * b⁻¹ := by
  unfold fdiv at h
  split at h
  · exact Except.noConfusion h
  · rename_i hb
    cases h
    exact ⟨hb, by rw [pow29_eq_inv hb]⟩

lemma evenParts_eq : ∀ lr : List (FieldElement × FieldElement),
    evenParts lr = .ok (lr.map fun p => (p.1 + p.2) * two⁻¹) := by
  intro lr
  induction lr with
  | nil => rfl
  | cons hd tl ih =>
    obtain ⟨l, r⟩ := hd
    show (match fdiv (l + r) two with
      | Except.error e => Except.error e
      | Except.ok v =>
        match evenParts tl with
        | Except.error e => Except.error e
        | Except.ok vs => Except.ok (v :: vs)) = _
    rw [show fdiv (l + r) two = .ok ((l + r) * two ^ 29) from by
      unfold fdiv; rw [if_neg fe_two_ne_zero], ih, pow29_eq_inv fe_two_ne_zero]
    rfl

lemma oddParts_ok_length : ∀ {l : List ((FieldElement × FieldElement) × FieldElement)}
    {fo : List FieldElement}, oddParts l = .ok fo → fo.length = l.length := by
  intro l
  induction l with
  | nil => intro fo h; cases h; rfl
  | cons hd tl ih =>
    intro fo h
    obtain ⟨⟨a, b⟩, t⟩ := hd
    unfold oddParts at h
    split at h
    · exact Except.noConfusion h
    · split at h
      · exact Except.noConfusion h
      · rename_i vs hvs
        cases h
        simp [ih hvs]

lemma interleave_length : ∀ {a b : List FieldElement}, a.length = b.length →
    (interleave a b).length = a.length + b.length := by
  intro a
  induction a with
  | nil =>
    intro b h
    obtain rfl : b = [] := List.length_eq_zero.mp h.symm
    rfl
  | cons x xs ih =>
    intro b h
    cases b with
    | nil => simp at h
    | cons y ys =>
      have h2 : xs.length = ys.length := by simpa using h
      show (x :: y :: interleave xs ys).length = _
      simp only [List.length_cons, ih h2]
      omega

lemma everyOther_interleave_fst : ∀ (a b : List FieldElement), a.length = b.length →
    everyOther (interleave a b) = a := by
  intro a
  induction a with
  | nil =>
    intro b h
    obtain rfl : b = [] := List.length_eq_zero.mp h.symm
    rfl
  | cons x xs ih =>
    intro b h
    cases b with
    | nil => simp at h
    | cons y ys =>
      have h2 : xs.length = ys.length := by simpa using h
      show x :: everyOther (interleave xs ys) = x :: xs
      rw [ih ys h2]

lemma everyOther_interleave_snd : ∀ (a b : List FieldElement), a.length = b.length →
    everyOther ((interleave a b).drop 1) = b := by
  intro a
  induction a with
  | nil =>
    intro b h
    obtain rfl : b = [] := List.length_eq_zero.mp h.symm
    rfl
  | cons x xs ih =>
    intro b h
    cases b with
    | nil => simp at h
    | cons y ys =>
      have h2 : xs.length = ys.length := by simpa using h
      show everyOther (y :: interleave xs ys) = y :: ys
      cases xs with
      | nil =>
        obtain rfl : ys = [] := List.length_eq_zero.mp h2.symm
        rfl
      | cons x2 xs2 =>
        cases ys with
        | nil => simp at h2
        | cons y2 ys2 =>
          exact congrArg (List.cons y) (ih (y2 :: ys2) h2)

lemma core_alg {l r x e o : FieldElement}
    (he : fdiv (l + r) two = .ok e) (ho : fdiv (l - r) (x * two) = .ok o) :
    e + x * o = l ∧ e - x * o = r := by
  obtain ⟨h2, rfl⟩ := fdiv_ok he
  obtain ⟨hx2, rfl⟩ := fdiv_ok ho
  have hx : x ≠ 0 := fun hz => hx2 (by rw [hz, zero_mul])
  have h2eq : (two : FieldElement) = 2 := rfl
  have htwo : (2 : FieldElement) ≠ 0 := by decide
  rw [h2eq]
  constructor
  · field_simp
    ring
  · field_simp
    ring

lemma reconstruct_eq : ∀ (lr : List (FieldElement × FieldElement))
    (xf fe fo : List FieldElement),
    lr.length ≤ xf.length →
    evenParts lr = .ok fe →
    oddParts (lr.zip xf) = .ok fo →
    zip3With (fun t e o => e + t * o) xf fe fo = lr.map Prod.fst ∧
    zip3With (fun t e o => e - t * o) xf fe fo = lr.map Prod.snd := by
  intro lr
  induction lr with
  | nil =>
    intro xf fe fo _ he ho
    cases he
    cases ho
    constructor <;> (cases xf <;> rfl)
  | cons hd tl ih =>
    intro xf fe fo hlen he ho
    obtain ⟨l, r⟩ := hd
    cases xf with
    | nil => simp at hlen
    | cons x xs =>
      unfold evenParts at he
      split at he
      · exact Except.noConfusion he
      · rename_i e0 he0
        split at he
        · exact Except.noConfusion he
        · rename_i fe' hfe'
          cases he
          rw [List.zip_cons_cons] at ho
          unfold oddParts at ho
          split at ho
          · exact Except.noConfusion ho
          · rename_i o0 ho0
            split at ho
            · exact Except.noConfusion ho
            · rename_i fo' hfo'
              cases ho
              have hco := core_alg he0 ho0
              have hih := ih xs fe' fo' (by simpa using hlen) hfe' hfo'
              constructor
              · show (e0 + x * o0) :: zip3With _ xs fe' fo' = l :: tl.map Prod.fst
                rw [hco.1, hih.1]
              · show (e0 - x * o0) :: zip3With _ xs fe' fo' = r :: tl.map Prod.snd
                rw [hco.2, hih.2]

lemma fftX_one (fuel : ℕ) (v : FieldElement) (xd : List FieldElement) :
    fft_squaring_map_x fuel [v] xd = .ok [v] := by
  cases fuel <;> rfl

lemma fftX_zero_fuel (a b : FieldElement) (t xd : List FieldElement) :
    fft_squaring_map_x 0 (a :: b :: t) xd = .error .nonTermination := rfl

lemma fftX_cons2 (fuel : ℕ) (a b : FieldElement) (t xd : List FieldElement) :
    fft_squaring_map_x (fuel + 1) (a :: b :: t) xd =
      match evenParts (((a :: b :: t).take ((a :: b :: t).length / 2)).zip
          (((a :: b :: t).drop ((a :: b :: t).length / 2)).reverse)) with
      | Except.error e => Except.error e
      | Except.ok f_even_x =>
        match oddParts ((((a :: b :: t).take ((a :: b :: t).length / 2)).zip
            (((a :: b :: t).drop ((a :: b :: t).length / 2)).reverse)).zip
            (xd.take ((a :: b :: t).length / 2))) with
        | Except.error e => Except.error e
        | Except.ok f_odd_x =>
          match fft_squaring_map_x fuel f_even_x
              ((xd.take ((a :: b :: t).length / 2)).map sqmap) with
          | Except.error e => Except.error e
          | Except.ok coeffs_even =>
            match fft_squaring_map_x fuel f_odd_x
                ((xd.take ((a :: b :: t).length / 2)).map sqmap) with
            | Except.error e => Except.error e
            | Except.ok coeffs_odd => Except.ok (interleave coeffs_even coeffs_odd) := rfl

lemma ifftX_one (fuel : ℕ) (v : FieldElement) (xd : List FieldElement) :
    ifft_squaring_map_x fuel [v] xd = .ok [v] := by
  cases fuel <;> rfl

lemma ifftX_cons2 (fuel : ℕ) (a b : FieldElement) (t xd : List FieldElement) :
    ifft_squaring_map_x (fuel + 1) (a :: b :: t) xd =
      match ifft_squaring_map_x fuel (everyOther (a :: b :: t))
          ((xd.take ((a :: b :: t).length / 2)).map sqmap) with
      | Except.error e => Except.error e
      | Except.ok f_even_x =>
        match ifft_squaring_map_x fuel (everyOther ((a :: b :: t).drop 1))
            ((xd.take ((a :: b :: t).length / 2)).map sqmap) with
        | Except.error e => Except.error e
        | Except.ok f_odd_x =>
          Except.ok
            (zip3With (fun t e o => e + t * o) (xd.take ((a :: b :: t).length / 2))
                f_even_x f_odd_x ++
              (zip3With (fun t e o => e - t * o) (xd.take ((a :: b :: t).length / 2))
                f_even_x f_odd_x).reverse) := rfl

set_option maxHeartbeats 1000000 in
lemma fft_squaring_spec : ∀ (k fuel : ℕ) (v xd c : List FieldElement),
    v.length = 2 ^ k → v.length ≤ xd.length →
    fft_squaring_map_x fuel v xd = .ok c →
    c.length = v.length ∧ ifft_squaring_map_x fuel c xd = .ok v := by
  intro k
  induction k with
  | zero =>
    intro fuel v xd c hlen hle hok
    obtain ⟨a, rfl⟩ : ∃ a, v = [a] := List.length_eq_one.mp hlen
    rw [fftX_one] at hok
    cases hok
    exact ⟨rfl, ifftX_one fuel a xd⟩
  | succ k ih =>
    intro fuel v xd c hlen hle hok
    have hpow2 : 2 ≤ 2 ^ (k + 1) := by
      calc (2 : ℕ) = 2 ^ 1 := by norm_num
      _ ≤ 2 ^ (k + 1) := Nat.pow_le_pow_right (by norm_num) (by omega)
    obtain ⟨a, b, t, rfl⟩ : ∃ a b t, v = a :: b :: t := by
      cases v with
      | nil => rw [List.length_nil] at hlen; omega
      | cons a v2 =>
        cases v2 with
        | nil => simp only [List.length_singleton] at hlen; omega
        | cons b t => exact ⟨a, b, t, rfl⟩
    cases fuel with
    | zero => rw [fftX_zero_fuel] at hok; exact Except.noConfusion hok
    | succ fuel =>
      rw [fftX_cons2, hlen] at hok
      have hhalf : 2 ^ (k + 1) / 2 = 2 ^ k := by
        rw [pow_succ]
        exact Nat.mul_div_cancel _ (by norm_num)
      rw [hhalf] at hok
      -- name the pieces
      have hlen2 : (a :: b :: t).length = 2 * 2 ^ k := by rw [hlen, pow_succ]; ring
      have hLlen : ((a :: b :: t).take (2 ^ k)).length = 2 ^ k := by
        rw [List.length_take, hlen2]
        omega
      have hRlen : (((a :: b :: t).drop (2 ^ k)).reverse).length = 2 ^ k := by
        rw [List.length_reverse, List.length_drop, hlen2]
        omega
      have hzipLen : (((a :: b :: t).take (2 ^ k)).zip
          (((a :: b :: t).drop (2 ^ k)).reverse)).length = 2 ^ k := by
        rw [List.length_zip, hLlen, hRlen, Nat.min_self]
      have hxfLen : (xd.take (2 ^ k)).length = 2 ^ k := by
        rw [List.length_take]
        rw [hlen2] at hle
        omega
      have hfeLen : ((((a :: b :: t).take (2 ^ k)).zip
          (((a :: b :: t).drop (2 ^ k)).reverse)).map
            (fun p => (p.1 + p.2) * two⁻¹)).length = 2 ^ k := by
        rw [List.length_map, hzipLen]
      have hndLen : ((xd.take (2 ^ k)).map sqmap).length = 2 ^ k := by
        rw [List.length_map, hxfLen]
      -- analyse the evenParts computation (it never fails)
      split at hok
      · exact Except.noConfusion hok
      rename_i fe hfe
      obtain rfl : fe = (((a :: b :: t).take (2 ^ k)).zip
          (((a :: b :: t).drop (2 ^ k)).reverse)).map (fun p => (p.1 + p.2) * two⁻¹) := by
        have h := evenParts_eq (((a :: b :: t).take (2 ^ k)).zip
          (((a :: b :: t).drop (2 ^ k)).reverse))
        rw [hfe] at h
        exact Except.ok.inj h
      -- analyse the oddParts computation and the recursive calls
      split at hok
      · exact Except.noConfusion hok
      · rename_i fo hodd
        have hfoLen : fo.length = 2 ^ k := by
          rw [oddParts_ok_length hodd, List.length_zip, hzipLen, hxfLen, Nat.min_self]
        split at hok
        · exact Except.noConfusion hok
        · rename_i cE hrecE
          split at hok
          · exact Except.noConfusion hok
          · rename_i cO hrecO
            cases hok
            have hE := ih fuel _ _ _ hfeLen (by rw [hfeLen, hndLen]) hrecE
            have hO := ih fuel _ _ _ hfoLen (by rw [hfoLen, hndLen]) hrecO
            have hcELen : cE.length = 2 ^ k := by rw [hE.1, hfeLen]
            have hcOLen : cO.length = 2 ^ k := by rw [hO.1, hfoLen]
            have hcLen : (interleave cE cO).length = 2 ^ (k + 1) := by
              rw [interleave_length (by rw [hcELen, hcOLen]), hcELen, hcOLen, pow_succ]
              ring
            refine ⟨by rw [hcLen, hlen], ?_⟩
            -- destructure cE and cO
            obtain ⟨e0, et, rfl⟩ : ∃ e0 et, cE = e0 :: et := by
              cases cE with
              | nil => rw [List.length_nil] at hcELen; exact absurd hcELen.symm (by positivity)
              | cons e0 et => exact ⟨e0, et, rfl⟩
            obtain ⟨o0, ot, rfl⟩ : ∃ o0 ot, cO = o0 :: ot := by
              cases cO with
              | nil => rw [List.length_nil] at hcOLen; exact absurd hcOLen.symm (by positivity)
              | cons o0 ot => exact ⟨o0, ot, rfl⟩
            show ifft_squaring_map_x (fuel + 1) (e0 :: o0 :: interleave et ot) xd = _
            rw [ifftX_cons2]
            have hcLen2 : (e0 :: o0 :: interleave et ot).length = 2 ^ (k + 1) := hcLen
            rw [hcLen2, hhalf]
            have heoFst : everyOther (e0 :: o0 :: interleave et ot) = e0 :: et :=
              everyOther_interleave_fst (e0 :: et) (o0 :: ot)
                (by rw [hcELen, hcOLen])
            have heoSnd : everyOther ((e0 :: o0 :: interleave et ot).drop 1) = o0 :: ot :=
              everyOther_interleave_snd (e0 :: et) (o0 :: ot)
                (by rw [hcELen, hcOLen])
            rw [heoFst, heoSnd]
            simp only [hE.2, hO.2]
            have hrec := reconstruct_eq
              (((a :: b :: t).take (2 ^ k)).zip (((a :: b :: t).drop (2 ^ k)).reverse))
              (xd.take (2 ^ k)) _ fo
              (by rw [hzipLen, hxfLen]) (evenParts_eq _) hodd
            rw [hrec.1, hrec.2]
            rw [List.map_fst_zip _ _ (by rw [hLlen, hRlen]),
              List.map_snd_zip _ _ (by rw [hLlen, hRlen]),
              List.reverse_reverse, List.take_append_drop]

lemma zip3With_take (f : FieldElement → FieldElement → FieldElement → FieldElement) :
    ∀ (as xs bs : List FieldElement),
      zip3With f xs as bs = zip3With f (xs.take as.length) as bs := by
  intro as
  induction as with
  | nil =>
    intro xs bs
    cases xs <;> cases bs <;> rfl
  | cons a as' ih =>
    intro xs bs
    cases xs with
    | nil => cases bs <;> rfl
    | cons x xs' =>
      cases bs with
      | nil => rfl
      | cons b bs' =>
        show f x a b :: zip3With f xs' as' bs' = f x a b :: zip3With f (xs'.take as'.length) as' bs'
        rw [ih xs' bs']

lemma fftQ_one (v : FieldElement) (dom : List CirclePoint) :
    fft_quotient_map_y [v] dom = .ok [v] := rfl

lemma ifftQ_one (v : FieldElement) (dom : List CirclePoint) :
    ifft_quotient_map_y [v] dom = .ok [v] := rfl

lemma fftQ_nil (dom : List CirclePoint) :
    fft_quotient_map_y [] dom = .error .nonTermination := rfl

lemma fftQ_cons2 (a b : FieldElement) (t : List FieldElement) (dom : List CirclePoint) :
    fft_quotient_map_y (a :: b :: t) dom =
      match evenParts (((a :: b :: t).take ((a :: b :: t).length / 2)).zip
          (((a :: b :: t).drop ((a :: b :: t).length / 2)).reverse)) with
      | Except.error e => Except.error e
      | Except.ok f_even_y =>
        match oddParts ((((a :: b :: t).take ((a :: b :: t).length / 2)).zip
            (((a :: b :: t).drop ((a :: b :: t).length / 2)).reverse)).zip
            ((dom.take ((a :: b :: t).length / 2)).map CirclePoint.y)) with
        | Except.error e => Except.error e
        | Except.ok f_odd_y =>
          match fft_squaring_map_x f_even_y.length f_even_y
              ((dom.map CirclePoint.x).take ((a :: b :: t).length / 2)) with
          | Except.error e => Except.error e
          | Except.ok coeffs_even =>
            match fft_squaring_map_x f_odd_y.length f_odd_y
                ((dom.map CirclePoint.x).take ((a :: b :: t).length / 2)) with
            | Except.error e => Except.error e
            | Except.ok coeffs_odd => Except.ok (interleave coeffs_even coeffs_odd) := rfl

lemma ifftQ_cons2 (a b : FieldElement) (t : List FieldElement) (dom : List CirclePoint) :
    ifft_quotient_map_y (a :: b :: t) dom =
      match ifft_squaring_map_x (everyOther (a :: b :: t)).length (everyOther (a :: b :: t))
          ((dom.map CirclePoint.x).take ((a :: b :: t).length / 2)) with
      | Except.error e => Except.error e
      | Except.ok f_even_y =>
        match ifft_squaring_map_x (everyOther ((a :: b :: t).drop 1)).length
            (everyOther ((a :: b :: t).drop 1))
            ((dom.map CirclePoint.x).take ((a :: b :: t).length / 2)) with
        | Except.error e => Except.error e
        | Except.ok f_odd_y =>
          Except.ok
            (zip3With (fun t e o => e + t * o) (dom.map CirclePoint.y) f_even_y f_odd_y ++
              (zip3With (fun t e o => e - t * o) (dom.map CirclePoint.y)
                f_even_y f_odd_y).reverse) := rfl

set_option maxHeartbeats 1000000 in
lemma fft_quotient_spec : ∀ (k : ℕ) (v : List FieldElement) (dom : List CirclePoint)
    (c : List FieldElement),
    v.length = 2 ^ k → v.length ≤ dom.length →
    fft_quotient_map_y v dom = .ok c →
    c.length = v.length ∧ ifft_quotient_map_y c dom = .ok v := by
  intro k v dom c hlen hle hok
  cases k with
  | zero =>
    obtain ⟨a, rfl⟩ : ∃ a, v = [a] := List.length_eq_one.mp hlen
    rw [fftQ_one] at hok
    cases hok
    exact ⟨rfl, ifftQ_one a dom⟩
  | succ k =>
    have hpow2 : 2 ≤ 2 ^ (k + 1) := by
      calc (2 : ℕ) = 2 ^ 1 := by norm_num
      _ ≤ 2 ^ (k + 1) := Nat.pow_le_pow_right (by norm_num) (by omega)
    obtain ⟨a, b, t, rfl⟩ : ∃ a b t, v = a :: b :: t := by
      cases v with
      | nil => rw [List.length_nil] at hlen; omega
      | cons a v2 =>
        cases v2 with
        | nil => simp only [List.length_singleton] at hlen; omega
        | cons b t => exact ⟨a, b, t, rfl⟩
    rw [fftQ_cons2, hlen] at hok
    have hhalf : 2 ^ (k + 1) / 2 = 2 ^ k := by
      rw [pow_succ]
      exact Nat.mul_div_cancel _ (by norm_num)
    rw [hhalf] at hok
    have hlen2 : (a :: b :: t).length = 2 * 2 ^ k := by rw [hlen, pow_succ]; ring
    have hLlen : ((a :: b :: t).take (2 ^ k)).length = 2 ^ k := by
      rw [List.length_take, hlen2]
      omega
    have hRlen : (((a :: b :: t).drop (2 ^ k)).reverse).length = 2 ^ k := by
      rw [List.length_reverse, List.length_drop, hlen2]
      omega
    have hzipLen : (((a :: b :: t).take (2 ^ k)).zip
        (((a :: b :: t).drop (2 ^ k)).reverse)).length = 2 ^ k := by
      rw [List.length_zip, hLlen, hRlen, Nat.min_self]
    have hyfLen : ((dom.take (2 ^ k)).map CirclePoint.y).length = 2 ^ k := by
      rw [List.length_map, List.length_take]
      rw [hlen2] at hle
      omega
    have hxdLen : ((dom.map CirclePoint.x).take (2 ^ k)).length = 2 ^ k := by
      rw [List.length_take, List.length_map]
      rw [hlen2] at hle
      omega
    have hfeLen : ((((a :: b :: t).take (2 ^ k)).zip
        (((a :: b :: t).drop (2 ^ k)).reverse)).map
          (fun p => (p.1 + p.2) * two⁻¹)).length = 2 ^ k := by
      rw [List.length_map, hzipLen]
    split at hok
    · exact Except.noConfusion hok
    rename_i fe hfe
    obtain rfl : fe = (((a :: b :: t).take (2 ^ k)).zip
        (((a :: b :: t).drop (2 ^ k)).reverse)).map (fun p => (p.1 + p.2) * two⁻¹) := by
      have h := evenParts_eq (((a :: b :: t).take (2 ^ k)).zip
        (((a :: b :: t).drop (2 ^ k)).reverse))
      rw [hfe] at h
      exact Except.ok.inj h
    split at hok
    · exact Except.noConfusion hok
    · rename_i fo hodd
      have hfoLen : fo.length = 2 ^ k := by
        rw [oddParts_ok_length hodd, List.length_zip, hzipLen, hyfLen, Nat.min_self]
      split at hok
      · exact Except.noConfusion hok
      · rename_i cE hrecE
        split at hok
        · exact Except.noConfusion hok
        · rename_i cO hrecO
          cases hok
          have hE := fft_squaring_spec k _ _ _ _ hfeLen (by rw [hfeLen, hxdLen]) hrecE
          have hO := fft_squaring_spec k _ _ _ _ hfoLen (by rw [hfoLen, hxdLen]) hrecO
          have hcELen : cE.length = 2 ^ k := by rw [hE.1, hfeLen]
          have hcOLen : cO.length = 2 ^ k := by rw [hO.1, hfoLen]
          have hcLen : (interleave cE cO).length = 2 ^ (k + 1) := by
            rw [interleave_length (by rw [hcELen, hcOLen]), hcELen, hcOLen, pow_succ]
            ring
          refine ⟨by rw [hcLen, hlen], ?_⟩
          obtain ⟨e0, et, rfl⟩ : ∃ e0 et, cE = e0 :: et := by
            cases cE with
            | nil => rw [List.length_nil] at hcELen; exact absurd hcELen.symm (by positivity)
            | cons e0 et => exact ⟨e0, et, rfl⟩
          obtain ⟨o0, ot, rfl⟩ : ∃ o0 ot, cO = o0 :: ot := by
            cases cO with
            | nil => rw [List.length_nil] at hcOLen; exact absurd hcOLen.symm (by positivity)
            | cons o0 ot => exact ⟨o0, ot, rfl⟩
          show ifft_quotient_map_y (e0 :: o0 :: interleave et ot) dom = _
          rw [ifftQ_cons2]
          have hcLen2 : (e0 :: o0 :: interleave et ot).length = 2 ^ (k + 1) := hcLen
          rw [hcLen2, hhalf]
          have heoFst : everyOther (e0 :: o0 :: interleave et ot) = e0 :: et :=
            everyOther_interleave_fst (e0 :: et) (o0 :: ot) (by rw [hcELen, hcOLen])
          have heoSnd : everyOther ((e0 :: o0 :: interleave et ot).drop 1) = o0 :: ot :=
            everyOther_interleave_snd (e0 :: et) (o0 :: ot) (by rw [hcELen, hcOLen])
          rw [heoFst, heoSnd]
          rw [show (e0 :: et).length = ((((a :: b :: t).take (2 ^ k)).zip
              (((a :: b :: t).drop (2 ^ k)).reverse)).map
                (fun p => (p.1 + p.2) * two⁻¹)).length from by rw [hcELen, hfeLen]]
          rw [show (o0 :: ot).length = fo.length from by rw [hcOLen, hfoLen]]
          simp only [hE.2, hO.2]
          have hrec := reconstruct_eq
            (((a :: b :: t).take (2 ^ k)).zip (((a :: b :: t).drop (2 ^ k)).reverse))
            ((dom.take (2 ^ k)).map CirclePoint.y) _ fo
            (by rw [hzipLen, hyfLen]) (evenParts_eq _) hodd
          rw [zip3With_take (fun t e o => e + t * o)
              ((((a :: b :: t).take (2 ^ k)).zip
                (((a :: b :: t).drop (2 ^ k)).reverse)).map (fun p => (p.1 + p.2) * two⁻¹))
              (dom.map CirclePoint.y) fo,
            zip3With_take (fun t e o => e - t * o)
              ((((a :: b :: t).take (2 ^ k)).zip
                (((a :: b :: t).drop (2 ^ k)).reverse)).map (fun p => (p.1 + p.2) * two⁻¹))
              (dom.map CirclePoint.y) fo,
            hfeLen, ← List.map_take, hrec.1, hrec.2,
            List.map_fst_zip _ _ (by rw [hLlen, hRlen]),
            List.map_snd_zip _ _ (by rw [hLlen, hRlen]),
            List.reverse_reverse, List.take_append_drop]

lemma pow2_of_and_pred {n : ℕ} (hn : n ≠ 0) (h : n &&& (n - 1) = 0) :
    ∃ k, n = 2 ^ k := by
  refine ⟨n.log2, ?_⟩
  by_contra hne
  have h1 : 2 ^ n.log2 ≤ n := Nat.log2_self_le hn
  have h2 : n < 2 ^ (n.log2 + 1) := Nat.lt_log2_self
  have h3 : 2 ^ n.log2 < n := lt_of_le_of_ne h1 (fun e => hne e.symm)
  have h2' : n < 2 ^ n.log2 * 2 := by rw [← pow_succ]; exact h2
  have hdiv1 : n / 2 ^ n.log2 = 1 := Nat.div_eq_of_lt_le (by omega) (by omega)
  have hdiv2 : (n - 1) / 2 ^ n.log2 = 1 := Nat.div_eq_of_lt_le (by omega) (by omega)
  have hb1 : n.testBit n.log2 = true := by
    rw [Nat.testBit_to_div_mod, hdiv1]
    rfl
  have hb2 : (n - 1).testBit n.log2 = true := by
    rw [Nat.testBit_to_div_mod, hdiv2]
    rfl
  have hb : (n &&& (n - 1)).testBit n.log2 = true := by
    rw [Nat.testBit_and, hb1, hb2]
    rfl
  rw [h, Nat.zero_testBit] at hb
  exact Bool.noConfusion hb

lemma toField_fieldValue (c : FieldElement) : toField (fieldValue c) = c := by
  unfold toField fieldValue
  rw [Int.cast_natCast]
  exact ZMod.natCast_rightInverse c

lemma fieldValue_toField {e : ℤ} (h0 : 0 ≤ e) (h31 : e < 31) :
    fieldValue (toField e) = e := by
  unfold toField fieldValue
  rw [ZMod.val_intCast]
  exact_mod_cast Int.emod_eq_of_lt h0 (by exact_mod_cast h31)

/-- C1 amended: whenever `circle_fft` succeeds (the guard passes and no
division by zero occurs), `circle_ifft` of its output over the same domain
returns the input exactly; input entries are field elements, i.e. already
canonical in `[0, 31)`. -/
theorem circle_fft_roundtrip (v : List ℤ) (D : List CirclePoint) (c : List ℤ)
    (hv : ∀ e ∈ v, 0 ≤ e ∧ e < 31)
    (hok : circle_fft v D = .ok c) :
    circle_ifft c D = .ok v := by
  unfold circle_fft at hok
  split at hok
  · exact Except.noConfusion hok
  · rename_i hguard
    push_neg at hguard
    obtain ⟨hlen, hand⟩ := hguard
    cases hq : fft_quotient_map_y (v.map toField) D with
    | error e => rw [hq] at hok; exact Except.noConfusion hok
    | ok coeffs =>
      rw [hq] at hok
      cases hok
      rcases Nat.eq_zero_or_pos v.length with h0 | hpos
      · obtain rfl : v = [] := List.length_eq_zero.mp h0
        rw [show ([] : List ℤ).map toField = [] from rfl, fftQ_nil] at hq
        exact Except.noConfusion hq
      · obtain ⟨k, hk⟩ := pow2_of_and_pred (by omega) hand
        have harr : (v.map toField).length = 2 ^ k := by rw [List.length_map, hk]
        have hle : (v.map toField).length ≤ D.length := by rw [List.length_map, hlen]
        obtain ⟨hclen, hrt⟩ := fft_quotient_spec k (v.map toField) D coeffs harr hle hq
        have hclen2 : (coeffs.map fieldValue).length = v.length := by
          rw [List.length_map, hclen, List.length_map]
        unfold circle_ifft
        rw [if_neg (by
          rw [hclen2]
          intro hcon
          rcases hcon with h1 | h1
          · exact h1 hlen
          · exact h1 hand)]
        have hback : (coeffs.map fieldValue).map toField = coeffs := by
          rw [List.map_map]
          have hcomp : toField ∘ fieldValue = id := funext toField_fieldValue
          rw [hcomp, List.map_id]
        have hfwd : (v.map toField).map fieldValue = v := by
          rw [List.map_map]
          have hpt : ∀ e ∈ v, (fieldValue ∘ toField) e = id e := fun e he =>
            fieldValue_toField (hv e he).1 (hv e he).2
          rw [List.map_congr_left hpt, List.map_id]
        rw [hback]
        simp only [hrt]
        rw [hfwd]

/-- Witness for C1 amended: the concrete notebook round trip, with the
forward transform's success discharged by computation. -/
theorem circle_fft_roundtrip_witness :
    circle_ifft [28, 16, 16, 27, 20, 12, 28, 27]
        (generate_standard_position_coset ⟨24, 18⟩ G3lit)
      = .ok [1, 2, 4, 8, 16, 1, 2, 4] := by
  have hok : circle_fft [1, 2, 4, 8, 16, 1, 2, 4]
      (generate_standard_position_coset ⟨24, 18⟩ G3lit)
      = .ok [28, 16, 16, 27, 20, 12, 28, 27] := by decide
  have hv : ∀ e ∈ ([1, 2, 4, 8, 16, 1, 2, 4] : List ℤ), 0 ≤ e ∧ e < 31 := by decide
  exact circle_fft_roundtrip [1, 2, 4, 8, 16, 1, 2, 4]
    (generate_standard_position_coset ⟨24, 18⟩ G3lit)
    [28, 16, 16, 27, 20, 12, 28, 27] hv hok
